import Mathlib

/-!
Verification development for the sort-based window-partition builder
(`SortWindowBuild`, `velox/exec/SortWindowBuild.cpp`).

Rows are modelled abstractly: a row carries a partition-key part, an
ORDER-BY-key part and a payload.  The partition-boundary search
(`findNextPartitionStartRow`, `computePartitionStartRows`) is embedded
generically over a sequence of rows together with a key projection
`key : α → K`; equality of `key` values models
`compareRowsWithKeys(lhs, rhs, partitionKeyInfo_) == 0`.

The builder itself (`addInput` / `noMoreInput` / `hasNextPartition` /
`nextPartition`, the spill path and the memory path) is embedded as a state
machine over `BuildState`, with the memory-pool arithmetic of
`ensureInputFits` driven by an oracle environment `MemEnv`.  Fatal
`VELOX_CHECK` assertions are modelled as `Except.error`.
-/

namespace SortWindowBuild

section ListHelpers

variable {α K : Type} [DecidableEq K]

theorem length_dropWhile_le (p : α → Bool) :
    ∀ l : List α, (l.dropWhile p).length ≤ l.length := by
  intro l
  induction l with
  | nil => simp
  | cons a rest ih =>
    rw [List.dropWhile_cons]
    by_cases h : p a
    · simp only [h, if_true]
      simpa using Nat.le_succ_of_le ih
    · simp [h]

theorem takeWhile_eq_take_len (p : α → Bool) :
    ∀ l : List α, l.takeWhile p = l.take (l.takeWhile p).length := by
  intro l
  induction l with
  | nil => simp
  | cons a rest ih =>
    rw [List.takeWhile_cons]
    by_cases h : p a
    · simp only [h, if_true, List.length_cons, List.take_succ_cons]
      exact congrArg (a :: ·) ih
    · simp [h]

/-- Maximal runs of rows with equal partition key.  For a row sequence sorted
by partition keys this is exactly the list of window partitions; it also
describes the sequence of buffers produced by repeated
`loadNextPartitionFromSpill` calls over the merge stream. -/
def groups (key : α → K) : List α → List (List α)
  | [] => []
  | a :: rest =>
    (a :: rest.takeWhile (fun b => key b = key a)) ::
      groups key (rest.dropWhile (fun b => key b = key a))
termination_by l => l.length
decreasing_by
  have := length_dropWhile_le (fun b => decide (key b = key a)) rest
  simp only [List.length_cons]
  omega

theorem groups_flatten (key : α → K) :
    ∀ (m : Nat) (l : List α), l.length ≤ m → (groups key l).flatten = l := by
  intro m
  induction m with
  | zero =>
    intro l hm
    have hl : l = [] := List.length_eq_zero.1 (by omega)
    subst hl
    rw [groups]
    simp
  | succ m ih =>
    intro l hm
    match l with
    | [] => rw [groups]; simp
    | a :: rest =>
      rw [groups]
      have hlen := length_dropWhile_le (fun b => decide (key b = key a)) rest
      rw [List.flatten_cons,
        ih (rest.dropWhile (fun b => key b = key a)) (by simp at hm; omega)]
      simp [List.takeWhile_append_dropWhile]

/-- The contiguous sub-ranges `[ps[k], ps[k+1])` of `l` described by a
boundary list `ps`, as handed out by memory-mode `nextPartition()`
(`folly::Range(sortedRows_.data() + partitionStartRows_[i], size)`). -/
def boundarySlices (l : List α) : List Nat → List (List α)
  | [] => []
  | [_] => []
  | a :: b :: rest => ((l.drop a).take (b - a)) :: boundarySlices l (b :: rest)

theorem length_boundarySlices (l : List α) :
    ∀ ps : List Nat, (boundarySlices l ps).length = ps.length - 1 := by
  intro ps
  induction ps with
  | nil => simp [boundarySlices]
  | cons a rest ih =>
    cases rest with
    | nil => simp [boundarySlices]
    | cons b rest2 =>
      rw [boundarySlices]
      simp only [List.length_cons] at ih ⊢
      omega

end ListHelpers

section AdaptiveSearch

variable {α K : Type} [DecidableEq K] [Inhabited α]

/-- Inner doubling loop of `SortWindowBuild::findNextPartitionStartRow`
(SortWindowBuild.cpp:217-224):

    auto distance = 1;
    for (; distance < lastPosition - left; distance *= 2) {
      right = left + distance;
      if (partitionCompare(sortedRows_[left], sortedRows_[right]) != 0) {
        lastPosition = right;
        break;
      }
    }

Returns the pair `(lastPosition, distance)` as left by the `for` loop: on a
key mismatch at `right = left + distance` the loop breaks with
`lastPosition = right` and `distance` unchanged; on normal exit
`lastPosition` is unchanged and `distance` is the first doubled value with
`distance >= lastPosition - left`.  `hd` records that the loop is entered
with a positive `distance` (the source starts at 1). -/
def probe (key : α → K) (rows : List α) (left lastPosition distance : Nat)
    (hd : 0 < distance) : Nat × Nat :=
  if h : distance < lastPosition - left then
    if key rows[left]! = key rows[left + distance]! then
      probe key rows left lastPosition (distance * 2) (by omega)
    else
      (left + distance, distance)
  else
    (lastPosition, distance)
termination_by lastPosition - left - distance
decreasing_by omega

/-- Full characterisation of one run of the inner doubling loop. -/
theorem probe_spec (key : α → K) (rows : List α) :
    ∀ (m left lastPosition distance : Nat) (hd : 0 < distance) (lp d : Nat),
      lastPosition - left - distance ≤ m →
      probe key rows left lastPosition distance hd = (lp, d) →
      key rows[left + distance / 2]! = key rows[left]! →
      distance ≤ d ∧
      key rows[left + d / 2]! = key rows[left]! ∧
      ((lp = left + d ∧ left + d < lastPosition ∧
          ¬ key rows[left + d]! = key rows[left]!) ∨
       (lp = lastPosition ∧ lastPosition ≤ left + d ∧
          (d = distance ∨ d / 2 < lastPosition - left))) := by
  intro m
  induction m with
  | zero =>
    intro left lastPosition distance hd lp d hm heq hprev
    rw [probe] at heq
    rw [dif_neg (by omega)] at heq
    obtain ⟨rfl, rfl⟩ := Prod.mk.injEq .. ▸ heq
    refine ⟨le_rfl, hprev, Or.inr ⟨rfl, by omega, Or.inl rfl⟩⟩
  | succ m ih =>
    intro left lastPosition distance hd lp d hm heq hprev
    rw [probe] at heq
    by_cases h : distance < lastPosition - left
    · rw [dif_pos h] at heq
      by_cases hk : key rows[left]! = key rows[left + distance]!
      · rw [if_pos hk] at heq
        have hrec := ih left lastPosition (distance * 2) (by omega) lp d
          (by omega) heq (by simpa [Nat.mul_div_cancel_left] using hk.symm)
        refine ⟨by omega, hrec.2.1, ?_⟩
        rcases hrec.2.2 with hbreak | ⟨h1, h2, h3⟩
        · exact Or.inl hbreak
        · refine Or.inr ⟨h1, h2, ?_⟩
          rcases h3 with h3 | h3
          · exact Or.inr (by omega)
          · exact Or.inr h3
      · rw [if_neg hk] at heq
        obtain ⟨rfl, rfl⟩ := Prod.mk.injEq .. ▸ heq
        exact ⟨le_rfl, hprev, Or.inl ⟨rfl, by omega, fun h => hk h.symm⟩⟩
    · rw [dif_neg h] at heq
      obtain ⟨rfl, rfl⟩ := Prod.mk.injEq .. ▸ heq
      exact ⟨le_rfl, hprev, Or.inr ⟨rfl, by omega, Or.inl rfl⟩⟩

/-- Outer `while` loop of `SortWindowBuild::findNextPartitionStartRow`
(SortWindowBuild.cpp:213-228):

    auto left = start;
    auto right = left + 1;
    auto lastPosition = sortedRows_.size();
    while (right < lastPosition) {
      ... inner loop (probe) ...
      left += distance / 2;
      right = left + 1;
    }
    return right;

`right` always equals `left + 1` when the loop condition is tested, so the
loop is driven by `left` and `lastPosition` alone. -/
def findLoop (key : α → K) (rows : List α) (left lastPosition : Nat) : Nat :=
  if hgap : left + 1 < lastPosition then
    findLoop key rows
      (left + (probe key rows left lastPosition 1 Nat.one_pos).2 / 2)
      (probe key rows left lastPosition 1 Nat.one_pos).1
  else
    left + 1
termination_by lastPosition - left
decreasing_by
  obtain ⟨hd1, -, hcase⟩ := probe_spec key rows (lastPosition - left) left lastPosition 1
    Nat.one_pos (probe key rows left lastPosition 1 Nat.one_pos).1
    (probe key rows left lastPosition 1 Nat.one_pos).2 (by omega) rfl (by simp)
  rcases hcase with ⟨h1, h2, -⟩ | ⟨h1, h2, h3⟩
  · omega
  · rcases h3 with h3 | h3 <;> omega

/-- `SortWindowBuild::findNextPartitionStartRow(start)`
(SortWindowBuild.cpp:208-229), with the row array's partition-key comparison
abstracted into the projection `key`. -/
def findNextPartitionStartRow (key : α → K) (rows : List α) (start : Nat) : Nat :=
  findLoop key rows start rows.length

/-- Unconditional bounds: the outer loop strictly advances past `left` and
never returns beyond the initial `lastPosition`. -/
theorem findLoop_bounds (key : α → K) (rows : List α) :
    ∀ (m left lastPosition : Nat), lastPosition - left ≤ m →
      left < lastPosition →
      left < findLoop key rows left lastPosition ∧
      findLoop key rows left lastPosition ≤ lastPosition := by
  intro m
  induction m with
  | zero => intro left lastPosition hm hlt; omega
  | succ m ih =>
    intro left lastPosition hm hlt
    rw [findLoop]
    by_cases hgap : left + 1 < lastPosition
    · rw [dif_pos hgap]
      obtain ⟨hd1, -, hcase⟩ := probe_spec key rows (lastPosition - left) left lastPosition 1
        Nat.one_pos (probe key rows left lastPosition 1 Nat.one_pos).1
        (probe key rows left lastPosition 1 Nat.one_pos).2 (by omega) rfl (by simp)
      rcases hcase with ⟨h1, h2, -⟩ | ⟨h1, h2, h3⟩
      · have := ih (left + (probe key rows left lastPosition 1 Nat.one_pos).2 / 2)
          (probe key rows left lastPosition 1 Nat.one_pos).1 (by omega) (by omega)
        omega
      · rcases h3 with h3 | h3
        · omega
        · have := ih (left + (probe key rows left lastPosition 1 Nat.one_pos).2 / 2)
            (probe key rows left lastPosition 1 Nat.one_pos).1 (by omega) (by omega)
          omega
    · rw [dif_neg hgap]
      omega

/-- Bounds for `findNextPartitionStartRow` on a valid start index. -/
theorem findNextPartitionStartRow_bounds (key : α → K) (rows : List α)
    (start : Nat) (h : start < rows.length) :
    start < findNextPartitionStartRow key rows start ∧
    findNextPartitionStartRow key rows start ≤ rows.length :=
  findLoop_bounds key rows rows.length start rows.length (by omega) h

/-- Reference linear scan: starting at index `i`, the first index whose key
differs from `k`, or the row count if there is none. -/
def linearScanFrom (key : α → K) (rows : List α) (k : K) (i : Nat) : Nat :=
  if h : i < rows.length then
    if key rows[i]! = k then linearScanFrom key rows k (i + 1) else i
  else
    rows.length
termination_by rows.length - i
decreasing_by omega

/-- Reference specification of `findNextPartitionStartRow(start)`: the
smallest index `i > start` whose partition key differs from `rows[start]`'s,
or the row count if no such index exists. -/
def linearNextPartitionStart (key : α → K) (rows : List α) (start : Nat) : Nat :=
  linearScanFrom key rows (key rows[start]!) (start + 1)

theorem linearScanFrom_spec (key : α → K) (rows : List α) (k : K) :
    ∀ (m i : Nat), rows.length - i ≤ m → i ≤ rows.length →
      i ≤ linearScanFrom key rows k i ∧
      linearScanFrom key rows k i ≤ rows.length ∧
      (∀ j, i ≤ j → j < linearScanFrom key rows k i → key rows[j]! = k) ∧
      (linearScanFrom key rows k i < rows.length →
        ¬ key rows[linearScanFrom key rows k i]! = k) := by
  intro m
  induction m with
  | zero =>
    intro i hm hi
    have hieq : i = rows.length := by omega
    rw [linearScanFrom, dif_neg (by omega)]
    exact ⟨by omega, le_rfl, fun j h1 h2 => by omega, fun h => by omega⟩
  | succ m ih =>
    intro i hm hi
    rw [linearScanFrom]
    by_cases h : i < rows.length
    · rw [dif_pos h]
      by_cases hk : key rows[i]! = k
      · rw [if_pos hk]
        obtain ⟨ih1, ih2, ih3, ih4⟩ := ih (i + 1) (by omega) (by omega)
        refine ⟨by omega, ih2, ?_, ih4⟩
        intro j h1 h2
        rcases Nat.eq_or_lt_of_le h1 with rfl | h1
        · exact hk
        · exact ih3 j (by omega) h2
      · rw [if_neg hk]
        exact ⟨le_rfl, by omega, fun j h1 h2 => by omega, fun _ => hk⟩
    · rw [dif_neg h]
      exact ⟨by omega, le_rfl, fun j h1 h2 => by omega, fun hlt => by omega⟩

theorem linearNextPartitionStart_spec (key : α → K) (rows : List α) (start : Nat)
    (h : start < rows.length) :
    start < linearNextPartitionStart key rows start ∧
    linearNextPartitionStart key rows start ≤ rows.length ∧
    (∀ j, start ≤ j → j < linearNextPartitionStart key rows start →
      key rows[j]! = key rows[start]!) ∧
    (linearNextPartitionStart key rows start < rows.length →
      ¬ key rows[linearNextPartitionStart key rows start]! = key rows[start]!) := by
  obtain ⟨h1, h2, h3, h4⟩ := linearScanFrom_spec key rows (key rows[start]!)
    (rows.length - start) (start + 1) (by omega) (by omega)
  unfold linearNextPartitionStart
  refine ⟨by omega, h2, ?_, h4⟩
  intro j hj1 hj2
  rcases Nat.eq_or_lt_of_le hj1 with rfl | hj1
  · rfl
  · exact h3 j (by omega) hj2

/-- The row sequence is sorted by partition keys: rows with equal keys are
contiguous.  (This is the property guaranteed by sorting with the combined
key-compare spec list, whose leading entries are the partition keys.) -/
def SortedByKey (key : α → K) (rows : List α) : Prop :=
  ∀ c, c < rows.length → ∀ j, j ≤ c → ∀ i, i ≤ j →
    key rows[i]! = key rows[c]! → key rows[j]! = key rows[i]!

instance sortedByKeyDecidable (key : α → K) (rows : List α) :
    Decidable (SortedByKey key rows) :=
  inferInstanceAs (Decidable (∀ c, c < rows.length → ∀ j, j ≤ c → ∀ i, i ≤ j →
    key rows[i]! = key rows[c]! → key rows[j]! = key rows[i]!))

/-- Main loop lemma for claim C1: under the sortedness invariant, the outer
loop of the adaptive search converges to the reference linear-scan answer. -/
theorem findLoop_eq_linear (key : α → K) (rows : List α)
    (hs : SortedByKey key rows) (start : Nat) :
    ∀ (m left lastPosition : Nat), lastPosition - left ≤ m →
      start ≤ left →
      key rows[left]! = key rows[start]! →
      left < linearNextPartitionStart key rows start →
      linearNextPartitionStart key rows start ≤ lastPosition →
      lastPosition ≤ rows.length →
      findLoop key rows left lastPosition = linearNextPartitionStart key rows start := by
  intro m
  induction m with
  | zero =>
    intro left lastPosition hm hstartle hkey hleftN hNlp hlp
    rw [findLoop, dif_neg (by omega)]
    omega
  | succ m ih =>
    intro left lastPosition hm hstartle hkey hleftN hNlp hlp
    rw [findLoop]
    by_cases hgap : left + 1 < lastPosition
    · rw [dif_pos hgap]
      obtain ⟨hd1, hkey2, hcase⟩ := probe_spec key rows (lastPosition - left) left
        lastPosition 1 Nat.one_pos (probe key rows left lastPosition 1 Nat.one_pos).1
        (probe key rows left lastPosition 1 Nat.one_pos).2 (by omega) rfl (by simp)
      -- facts about N = linearNextPartitionStart key rows start
      have hstartlen : start < rows.length := by omega
      obtain ⟨hN1, hN2, hN3, hN4⟩ :=
        linearNextPartitionStart_spec key rows start hstartlen
      rcases hcase with ⟨h1, h2, h3⟩ | ⟨h1, h2, h3⟩
      · -- inner loop broke at a key mismatch: lastPosition shrinks to left + d
        have hmis : ¬ key rows[left + (probe key rows left lastPosition 1 Nat.one_pos).2]! =
            key rows[start]! := fun hc => h3 (hc.trans hkey.symm)
        have hNle : linearNextPartitionStart key rows start ≤
            left + (probe key rows left lastPosition 1 Nat.one_pos).2 := by
          by_contra hcon
          exact hmis (hN3 _ (by omega) (by omega))
        have hkeyL : key rows[left + (probe key rows left lastPosition 1 Nat.one_pos).2 / 2]! =
            key rows[start]! := hkey2.trans hkey
        have hltN : left + (probe key rows left lastPosition 1 Nat.one_pos).2 / 2 <
            linearNextPartitionStart key rows start := by
          by_contra hcon
          have hNlt : linearNextPartitionStart key rows start < rows.length := by omega
          have := hs (left + (probe key rows left lastPosition 1 Nat.one_pos).2 / 2)
            (by omega) (linearNextPartitionStart key rows start) (by omega) start
            (by omega) hkeyL.symm
          exact hN4 hNlt (this.trans rfl)
        exact ih (left + (probe key rows left lastPosition 1 Nat.one_pos).2 / 2)
          (probe key rows left lastPosition 1 Nat.one_pos).1 (by omega) (by omega)
          hkeyL hltN (by omega) (by omega)
      · -- inner loop exited normally: lastPosition unchanged, d >= gap
        rcases h3 with h3 | h3
        · omega
        · have hkeyL : key rows[left + (probe key rows left lastPosition 1 Nat.one_pos).2 / 2]! =
              key rows[start]! := hkey2.trans hkey
          have hhalf : 1 ≤ (probe key rows left lastPosition 1 Nat.one_pos).2 / 2 := by omega
          have hltN : left + (probe key rows left lastPosition 1 Nat.one_pos).2 / 2 <
              linearNextPartitionStart key rows start := by
            by_contra hcon
            have hNlt : linearNextPartitionStart key rows start < rows.length := by omega
            have := hs (left + (probe key rows left lastPosition 1 Nat.one_pos).2 / 2)
              (by omega) (linearNextPartitionStart key rows start) (by omega) start
              (by omega) hkeyL.symm
            exact hN4 hNlt (this.trans rfl)
          exact ih (left + (probe key rows left lastPosition 1 Nat.one_pos).2 / 2)
            (probe key rows left lastPosition 1 Nat.one_pos).1 (by omega) (by omega)
            hkeyL hltN (by omega) (by omega)
    · rw [dif_neg hgap]
      omega

/-- `SortWindowBuild::computePartitionStartRows` loop
(SortWindowBuild.cpp:243-248):

    vector_size_t start = 0;
    while (start < sortedRows_.size()) {
      auto next = findNextPartitionStartRow(start);
      partitionStartRows_.push_back(next);
      start = next;
    }

modelled as the list of pushed boundaries from a given `start`. -/
def partitionStartsFrom (key : α → K) (rows : List α) (start : Nat) : List Nat :=
  if h : start < rows.length then
    findNextPartitionStartRow key rows start ::
      partitionStartsFrom key rows (findNextPartitionStartRow key rows start)
  else []
termination_by rows.length - start
decreasing_by
  have := findNextPartitionStartRow_bounds key rows start h
  omega

/-- `SortWindowBuild::computePartitionStartRows` (SortWindowBuild.cpp:231-249):
pushes 0, fatally checks `sortedRows_.size() > 0` (`VELOX_CHECK_GT`,
modelled as `Except.error`), then appends the boundary of each partition in
turn until the row count is reached. -/
def computePartitionStartRows (key : α → K) (rows : List α) :
    Except String (List Nat) :=
  if rows.length = 0 then .error "sortedRows_.size() must be greater than 0"
  else .ok (0 :: partitionStartsFrom key rows 0)

theorem partitionStartsFrom_props (key : α → K) (rows : List α) :
    ∀ (m start : Nat), rows.length - start ≤ m → start < rows.length →
      (partitionStartsFrom key rows start).getLast? = some rows.length ∧
      List.Chain' (· < ·) (start :: partitionStartsFrom key rows start) ∧
      ∀ x ∈ partitionStartsFrom key rows start, x ≤ rows.length := by
  intro m
  induction m with
  | zero => intro start hm hlt; omega
  | succ m ih =>
    intro start hm hlt
    obtain ⟨hb1, hb2⟩ := findNextPartitionStartRow_bounds key rows start hlt
    rw [partitionStartsFrom, dif_pos hlt]
    by_cases hnext : findNextPartitionStartRow key rows start < rows.length
    · obtain ⟨ih1, ih2, ih3⟩ := ih (findNextPartitionStartRow key rows start)
        (by omega) hnext
      cases hpsf : partitionStartsFrom key rows (findNextPartitionStartRow key rows start) with
      | nil => rw [hpsf] at ih1; simp at ih1
      | cons y ys =>
        rw [hpsf] at ih1 ih2 ih3
        refine ⟨by simpa using ih1, ?_, ?_⟩
        · exact List.chain'_cons.2 ⟨hb1, ih2⟩
        · intro x hx
          rcases List.mem_cons.1 hx with rfl | hx
          · exact hb2
          · exact ih3 x hx
    · have heq : findNextPartitionStartRow key rows start = rows.length := by omega
      rw [heq, partitionStartsFrom, dif_neg (by omega)]
      refine ⟨by simp, ?_, by simp⟩
      exact List.chain'_cons.2 ⟨by omega, List.chain'_singleton _⟩

/-- The boundary loop pushes at most one boundary per remaining row. -/
theorem partitionStartsFrom_length_le (key : α → K) (rows : List α) :
    ∀ (m start : Nat), rows.length - start ≤ m →
      (partitionStartsFrom key rows start).length ≤ rows.length - start := by
  intro m
  induction m with
  | zero =>
    intro start hm
    rw [partitionStartsFrom, dif_neg (by omega)]
    simp
  | succ m ih =>
    intro start hm
    by_cases h : start < rows.length
    · rw [partitionStartsFrom, dif_pos h]
      obtain ⟨hb1, hb2⟩ := findNextPartitionStartRow_bounds key rows start h
      have := ih (findNextPartitionStartRow key rows start) (by omega)
      simp only [List.length_cons]
      omega
    · rw [partitionStartsFrom, dif_neg h]
      simp

/-- Helper: the adaptive search agrees with the reference linear scan on
sorted input (used both by claim C1 and by the boundary-list lemmas). -/
theorem findNext_eq_linear (key : α → K) (rows : List α)
    (hs : SortedByKey key rows) (start : Nat) (h : start < rows.length) :
    findNextPartitionStartRow key rows start =
      linearNextPartitionStart key rows start := by
  obtain ⟨hN1, hN2, hN3, hN4⟩ := linearNextPartitionStart_spec key rows start h
  exact findLoop_eq_linear key rows hs start rows.length start rows.length
    (by omega) le_rfl rfl hN1 hN2 le_rfl

/-- The run of equal keys starting at index `i` is what the linear scan
measures: `takeWhile` on `rows.drop i` has length `linearScanFrom i - i`,
and `dropWhile` jumps to `rows.drop (linearScanFrom i)`. -/
theorem linearScanFrom_drop (key : α → K) (rows : List α) (k : K) :
    ∀ (m i : Nat), rows.length - i ≤ m → i ≤ rows.length →
      ((rows.drop i).takeWhile (fun b => key b = k)).length =
        linearScanFrom key rows k i - i ∧
      (rows.drop i).dropWhile (fun b => key b = k) =
        rows.drop (linearScanFrom key rows k i) := by
  intro m
  induction m with
  | zero =>
    intro i hm hi
    have hnil : rows.drop i = [] := List.drop_eq_nil_of_le (by omega)
    rw [linearScanFrom, dif_neg (by omega), hnil]
    constructor
    · simp; omega
    · simp [List.drop_eq_nil_of_le]
  | succ m ih =>
    intro i hm hi
    by_cases h : i < rows.length
    · have hdrop : rows.drop i = rows[i] :: rows.drop (i + 1) :=
        List.drop_eq_getElem_cons h
      have hgetE : rows[i]! = rows[i] := getElem!_pos rows i h
      rw [linearScanFrom, dif_pos h]
      by_cases hk : key rows[i]! = k
      · rw [if_pos hk]
        obtain ⟨ih1, ih2⟩ := ih (i + 1) (by omega) (by omega)
        obtain ⟨hs1, hs2, -, -⟩ := linearScanFrom_spec key rows k
          (rows.length - (i + 1)) (i + 1) (by omega) (by omega)
        constructor
        · rw [hdrop, List.takeWhile_cons_of_pos
            (by simp only [decide_eq_true_eq]; rw [← hgetE]; exact hk),
            List.length_cons, ih1]
          omega
        · rw [hdrop, List.dropWhile_cons_of_pos
            (by simp only [decide_eq_true_eq]; rw [← hgetE]; exact hk), ih2]
      · rw [if_neg hk]
        constructor
        · rw [hdrop, List.takeWhile_cons_of_neg
            (by simp only [decide_eq_true_eq]; rw [← hgetE]; exact hk)]
          simp
        · rw [hdrop, List.dropWhile_cons_of_neg
            (by simp only [decide_eq_true_eq]; rw [← hgetE]; exact hk), ← hdrop]
    · have hnil : rows.drop i = [] := List.drop_eq_nil_of_le (by omega)
      rw [linearScanFrom, dif_neg h, hnil]
      constructor
      · simp; omega
      · simp [List.drop_eq_nil_of_le]

/-- Memory-mode partition views and merge-mode partition buffers coincide:
slicing a sorted row sequence at the computed partition boundaries yields
exactly its maximal runs of equal partition keys. -/
theorem boundarySlices_eq_groups (key : α → K) (rows : List α)
    (hs : SortedByKey key rows) :
    ∀ (m start : Nat), rows.length - start ≤ m → start ≤ rows.length →
      boundarySlices rows (start :: partitionStartsFrom key rows start) =
        groups key (rows.drop start) := by
  intro m
  induction m with
  | zero =>
    intro start hm hle
    have hstart : start = rows.length := by omega
    subst hstart
    rw [partitionStartsFrom, dif_neg (by omega), List.drop_length]
    rw [boundarySlices, groups]
  | succ m ih =>
    intro start hm hle
    by_cases h : start < rows.length
    · rw [partitionStartsFrom, dif_pos h]
      have hlin := findNext_eq_linear key rows hs start h
      obtain ⟨hb1, hb2⟩ := findNextPartitionStartRow_bounds key rows start h
      have hdrop : rows.drop start = rows[start] :: rows.drop (start + 1) :=
        List.drop_eq_getElem_cons h
      have hgetE : rows[start]! = rows[start] := getElem!_pos rows start h
      -- linearScanFrom at start itself: the key at start matches, so the scan
      -- from start equals the scan from start + 1, i.e. the next partition start.
      have hscan : linearScanFrom key rows (key rows[start]!) start =
          linearNextPartitionStart key rows start := by
        rw [linearScanFrom, dif_pos h, if_pos rfl]
        rfl
      obtain ⟨htw, hdw⟩ := linearScanFrom_drop key rows (key rows[start]!)
        (rows.length - start) start (by omega) (by omega)
      rw [hscan] at htw hdw
      rw [boundarySlices]
      rw [hdrop, groups, ← hdrop]
      have hpred : (fun b => decide (key b = key rows[start])) =
          (fun b => decide (key b = key rows[start]!)) := by
        rw [hgetE]
      rw [hpred]
      have hhead : (rows.drop start).take
            (findNextPartitionStartRow key rows start - start) =
          rows[start] :: (rows.drop (start + 1)).takeWhile
            (fun b => key b = key rows[start]!) := by
        have hcons : (rows.drop start).takeWhile (fun b => key b = key rows[start]!) =
            rows[start] :: (rows.drop (start + 1)).takeWhile
              (fun b => key b = key rows[start]!) := by
          rw [hdrop, List.takeWhile_cons_of_pos]
          simp only [decide_eq_true_eq]
          rw [← hgetE]
        rw [← hcons, takeWhile_eq_take_len, htw, hlin]
      rw [hhead]
      have htail : (rows.drop (start + 1)).dropWhile
            (fun b => key b = key rows[start]!) =
          rows.drop (linearNextPartitionStart key rows start) := by
        rw [← hdw, hdrop, List.dropWhile_cons_of_pos]
        simp only [decide_eq_true_eq]
        rw [← hgetE]
      rw [htail, ← hlin]
      rw [ih (findNextPartitionStartRow key rows start) (by omega) (by omega)]
    · have hstart : start = rows.length := by omega
      subst hstart
      rw [partitionStartsFrom, dif_neg (by omega), List.drop_length]
      rw [boundarySlices, groups]

end AdaptiveSearch

/-- An input row of the window build: `p` is the tuple of partition-key
columns, `s` the tuple of ORDER BY key columns, `d` the remaining payload
columns.  Null handling is absorbed into the key types: the order on `P`/`S`
models the total order induced by the compare flags (nulls placed per
`nullsFirst`), and equality on `P` models the equality-only comparison with
`NullHandlingMode::kNullAsValue` (nulls equal to themselves). -/
structure Row (P S D : Type) where
  p : P
  s : S
  d : D
deriving DecidableEq, Inhabited

section Build

variable {P S D : Type} [LinearOrder P] [LinearOrder S] [DecidableEq D]
variable [Inhabited P] [Inhabited S] [Inhabited D]

/-- The combined key-compare spec list built by `makeCompareFlags`
(SortWindowBuild.cpp:23-39): partition keys first (default flags: ascending,
full comparison), then the ORDER BY keys, i.e. the lexicographic order on
`(p, s)` ignoring the payload.  This single ordering is used both by
`PrefixSort::sort` on the in-memory path and by the spiller
(`SpillState::makeSortingKeys(compareFlags_)`) on the spill path. -/
def rowLe (a b : Row P S D) : Bool :=
  if a.p = b.p then decide (a.s ≤ b.s) else decide (a.p < b.p)

theorem rowLe_iff (a b : Row P S D) :
    rowLe a b = true ↔ (a.p = b.p ∧ a.s ≤ b.s) ∨ (¬ a.p = b.p ∧ a.p < b.p) := by
  unfold rowLe
  by_cases h : a.p = b.p <;> simp [h]

theorem rowLe_total (a b : Row P S D) : rowLe a b || rowLe b a := by
  rcases eq_or_ne a.p b.p with h | h
  · rcases le_total a.s b.s with hs | hs
    · simp [rowLe_iff, h, hs]
    · simp [rowLe_iff, h.symm, hs]
  · rcases lt_or_gt_of_ne h with hp | hp
    · simp [rowLe_iff, h, hp]
    · simp [rowLe_iff, h.symm, hp]

theorem rowLe_trans (a b c : Row P S D) :
    rowLe a b → rowLe b c → rowLe a c := by
  intro hab hbc
  rw [rowLe_iff] at hab hbc ⊢
  rcases hab with ⟨h1, h2⟩ | ⟨h1, h2⟩ <;> rcases hbc with ⟨h3, h4⟩ | ⟨h3, h4⟩
  · exact Or.inl ⟨h1.trans h3, h2.trans h4⟩
  · have hlt : a.p < c.p := lt_of_le_of_lt h1.le h4
    exact Or.inr ⟨ne_of_lt hlt, hlt⟩
  · have hlt : a.p < c.p := lt_of_lt_of_le h2 h3.le
    exact Or.inr ⟨ne_of_lt hlt, hlt⟩
  · have hlt : a.p < c.p := h2.trans h4
    exact Or.inr ⟨ne_of_lt hlt, hlt⟩

theorem rowLe_p_le {a b : Row P S D} (h : rowLe a b = true) : a.p ≤ b.p := by
  rw [rowLe_iff] at h
  rcases h with ⟨h1, -⟩ | ⟨-, h1⟩
  · exact h1.le
  · exact h1.le

/-- In-memory sort of the row pointers: `PrefixSort::sort(data_.get(),
compareFlags_, ...)` (SortWindowBuild.cpp:260-261), modelled as a merge sort
by the combined compare-flag order. -/
def sortRows (l : List (Row P S D)) : List (Row P S D) :=
  l.mergeSort rowLe

theorem length_sortRows (l : List (Row P S D)) : (sortRows l).length = l.length := by
  unfold sortRows
  exact List.length_mergeSort l

/-- A list sorted by the combined compare flags is sorted by partition keys:
rows with equal partition key are contiguous. -/
theorem sortedByKey_of_pairwise {l : List (Row P S D)}
    (hp : List.Pairwise (rowLe · ·) l) : SortedByKey Row.p l := by
  intro c hc j hj i hi hik
  have hpair := List.pairwise_iff_getElem.1 hp
  have hij : l[i]!.p ≤ l[j]!.p := by
    rcases Nat.eq_or_lt_of_le hi with rfl | hlt
    · exact le_rfl
    · rw [getElem!_pos l i (by omega), getElem!_pos l j (by omega)]
      exact rowLe_p_le (hpair i j (by omega) (by omega) hlt)
  have hjc : l[j]!.p ≤ l[c]!.p := by
    rcases Nat.eq_or_lt_of_le hj with rfl | hlt
    · exact le_rfl
    · rw [getElem!_pos l j (by omega), getElem!_pos l c (by omega)]
      exact rowLe_p_le (hpair j c (by omega) (by omega) hlt)
  exact le_antisymm (le_of_le_of_eq hjc hik.symm) hij

theorem sortedByKey_sortRows (l : List (Row P S D)) :
    SortedByKey Row.p (sortRows l) :=
  sortedByKey_of_pairwise
    (List.sorted_mergeSort (fun a b c => rowLe_trans a b c) rowLe_total l)

/-- Oracle snapshot of the memory pool / row-container statistics consulted
by `ensureInputFits` and `ensureSortFits`.  These quantities only steer
control flow; the builder state itself never depends on their values other
than through the branches taken.  `spillEnabled` is `spillConfig_ != nullptr`
and `testSpill` is the deterministic test hook
`testingTriggerSpill(pool_->name())`. -/
structure MemEnv where
  spillEnabled : Bool
  testSpill : Bool
  freeRows : Nat
  outOfLineFreeBytes : Nat
  retainedSize : Nat
  usedBytes : Nat
  availableReservation : Nat
  minSpillableReservationPct : Nat
  spillableReservationGrowthPct : Nat
  sizeIncrement : Nat → Nat → Nat
  maybeReserve : Nat → Bool

/-- The modelled state of a `SortWindowBuild`.

* `data` — contents of the `RowContainer` `data_`, in insertion order;
* `numRows` — `numRows_` (total accepted rows; unlike `data_`, never reset
  by a spill);
* `spillerActive` — `spiller_ != nullptr`;
* `spilledRuns` — all rows flushed to the spiller so far, in flush order;
* `merge` — `merge_`: `none` until `noMoreInput` opens the merge stream,
  then `some` of the not-yet-consumed part of the stream;
* `sortedRows` — `sortedRows_`: in memory mode the sorted row pointers, in
  merge mode the rolling single-partition buffer;
* `partitionStartRows` — `partitionStartRows_`;
* `currentPartition` — `currentPartition_` (modelled from the spec: the
  cursor starts before the first partition, i.e. at -1; the member's
  initializer lives in the header, which is not part of this extract). -/
structure BuildState (P S D : Type) where
  data : List (Row P S D)
  numRows : Nat
  spillerActive : Bool
  spilledRuns : List (Row P S D)
  merge : Option (List (Row P S D))
  sortedRows : List (Row P S D)
  partitionStartRows : List Nat
  currentPartition : Int

/-- The freshly constructed build (SortWindowBuild.cpp:42-64):
empty row container, no spiller, no merge stream, empty
`partitionStartRows_` (`partitionStartRows_.resize(0)`). -/
def initState : BuildState P S D :=
  { data := []
    numRows := 0
    spillerActive := false
    spilledRuns := []
    merge := none
    sortedRows := []
    partitionStartRows := []
    currentPartition := -1 }

/-- `SortWindowBuild::spill()` (SortWindowBuild.cpp:187-195): constructs the
spiller on first use, flushes the current contents of `data_` as one sorted
run (`spiller_->spill()` — an external collaborator, modelled from the spec:
the flushed rows are recorded in flush order and the ordering is imposed by
the merge reader at finalization), then clears `data_` and releases its
memory pool reservation. -/
def spill (st : BuildState P S D) : BuildState P S D :=
  { st with
      spillerActive := true
      spilledRuns := st.spilledRuns ++ st.data
      data := [] }

/-- `SortWindowBuild::ensureInputFits(input)` (SortWindowBuild.cpp:84-141).
The memory arithmetic is taken verbatim from the source, with the pool and
row-container statistics supplied by the oracle `env` (the nested
`if (availableReservationBytes >= minReservationBytes) { if (...) return; }`
of the source is written as one conjunction: both forms fall through to the
reservation-growth attempt otherwise).  A failed `maybeReserve` only logs a
warning: the state is returned unchanged. -/
def ensureInputFits (env : MemEnv) (st : BuildState P S D)
    (input : List (Row P S D)) : BuildState P S D :=
  if env.spillEnabled = false then
    -- Spilling is disabled.
    st
  else if st.data.length = 0 then
    -- Nothing to spill.
    st
  else if env.testSpill then
    -- Test-only spill path.
    spill st
  else
    let outOfLineBytes := env.retainedSize - env.outOfLineFreeBytes
    let outOfLineBytesPerRow := outOfLineBytes / st.data.length
    let currentUsage := env.usedBytes
    let minReservationBytes := currentUsage * env.minSpillableReservationPct / 100
    let availableReservationBytes := env.availableReservation
    let incrementBytes :=
      env.sizeIncrement input.length (outOfLineBytesPerRow * input.length)
    if minReservationBytes ≤ availableReservationBytes ∧
        input.length < env.freeRows ∧
        (outOfLineBytes = 0 ∨
          outOfLineBytesPerRow * input.length ≤ env.outOfLineFreeBytes) then
      -- Enough free rows for input rows and enough variable length free space.
      st
    else
      let targetIncrementBytes :=
        max (incrementBytes * 2)
          (currentUsage * env.spillableReservationGrowthPct / 100)
      if env.maybeReserve targetIncrementBytes then st
      else
        -- LOG(WARNING) << "Failed to reserve ..." — soft degradation only.
        st

/-- `SortWindowBuild::addInput(input)` (SortWindowBuild.cpp:66-82): decode
the batch, run the memory fit guard, then append every row of the batch to
the row container and bump `numRows_`. -/
def addInput (env : MemEnv) (st : BuildState P S D)
    (input : List (Row P S D)) : BuildState P S D :=
  let st1 := ensureInputFits env st input
  { st1 with
      data := st1.data ++ input
      numRows := st1.numRows + input.length }

/-- `SortWindowBuild::ensureSortFits()` (SortWindowBuild.cpp:143-178): no-op
when spilling is disabled; the test hook forces a spill; otherwise the
reservation attempt for the sort scratch space changes no modelled state
(failure is logged only). -/
def ensureSortFits (env : MemEnv) (st : BuildState P S D) : BuildState P S D :=
  if env.spillEnabled = false then st
  else if env.testSpill then spill st
  else st

/-- `SortWindowBuild::sortPartitions()` + `computePartitionStartRows()`
(SortWindowBuild.cpp:251-264): materialize all row pointers
(`sortedRows_.resize(numRows_); data_->listRows(...)` — in every reachable
memory-mode state `numRows_` equals the row-container size), sort them by
the combined compare flags, then compute the partition boundary list. -/
def sortPartitions (st : BuildState P S D) : Except String (BuildState P S D) :=
  let sorted := sortRows st.data
  match computePartitionStartRows Row.p sorted with
  | .error e => .error e
  | .ok psr =>
    .ok { st with sortedRows := sorted, partitionStartRows := psr }

/-- `SortWindowBuild::noMoreInput()` (SortWindowBuild.cpp:266-295): nothing
to do with zero accepted rows; otherwise run the sort-fit guard, then either
finalize the spill — one final `spill()` flush, `VELOX_CHECK_NULL(merge_)`,
`spiller_->finishSpill` into exactly one partition group and an ordered
reader over it (external collaborators, modelled from the spec: the merge
stream yields all spilled rows in the combined compare-flag order) — or sort
the in-memory rows and compute partition boundaries. -/
def noMoreInput (env : MemEnv) (st : BuildState P S D) :
    Except String (BuildState P S D) :=
  if st.numRows = 0 then .ok st
  else
    let st1 := ensureSortFits env st
    if st1.spillerActive then
      let st2 := spill st1
      match st2.merge with
      | some _ => .error "merge_ must be null"
      | none => .ok { st2 with merge := some (sortRows st2.spilledRuns) }
    else
      sortPartitions st1

/-- Loop body of `SortWindowBuild::loadNextPartitionFromSpill`
(SortWindowBuild.cpp:302-336): pull rows from the merge stream one at a
time; once the buffer is non-empty, compare the incoming row's partition-key
columns against the last buffered row with an equality-only,
nulls-as-values comparison (here: equality on `Row.p`); stop — leaving the
differing row in the stream — at the first mismatch, otherwise copy the row
into the container and buffer and advance the stream. -/
def loadLoop :
    List (Row P S D) → List (Row P S D) → List (Row P S D) × List (Row P S D)
  | buf, [] => (buf, [])
  | buf, r :: rest =>
    let newPartition :=
      match buf.getLast? with
      | none => false
      | some lastRow => decide (¬ lastRow.p = r.p)
    if newPartition then (buf, r :: rest)
    else loadLoop (buf ++ [r]) rest

/-- `SortWindowBuild::loadNextPartitionFromSpill` (SortWindowBuild.cpp:
297-337): clear `sortedRows_` and `data_`, then run the load loop over the
merge stream; the loaded rows are stored into `data_` and referenced from
`sortedRows_`. -/
def loadNextPartitionFromSpill (st : BuildState P S D) : BuildState P S D :=
  match st.merge with
  | none => st
  | some stream =>
    let res := loadLoop [] stream
    { st with sortedRows := res.1, data := res.1, merge := some res.2 }

/-- `SortWindowBuild::hasNextPartition()` (SortWindowBuild.cpp:365-373):
in merge mode eagerly load the next partition from the spill and report
whether the buffer is non-empty; in memory mode report whether the cursor
has a next boundary pair (`partitionStartRows_.size() - 2` is computed in
`Int` here; in every reachable state a non-empty boundary list has at least
two entries). -/
def hasNextPartition (st : BuildState P S D) : Bool × BuildState P S D :=
  match st.merge with
  | some _ =>
    let st1 := loadNextPartitionFromSpill st
    (!st1.sortedRows.isEmpty, st1)
  | none =>
    (decide (0 < st.partitionStartRows.length) &&
       decide (st.currentPartition < (st.partitionStartRows.length : Int) - 2),
     st)

/-- `SortWindowBuild::nextPartition()` (SortWindowBuild.cpp:339-363): in
merge mode, fatally check that the buffer is non-empty and wrap it as the
partition view (no state changes); in memory mode, fatally check that
boundaries exist, advance the cursor, fatally check it is within range, and
return the view over `[partitionStartRows_[i], partitionStartRows_[i+1])`.
`VELOX_CHECK` failures are modelled as `Except.error`. -/
def nextPartition (st : BuildState P S D) :
    Except String (List (Row P S D) × BuildState P S D) :=
  match st.merge with
  | some _ =>
    if st.sortedRows.isEmpty then .error "No window partitions available"
    else .ok (st.sortedRows, st)
  | none =>
    if st.partitionStartRows.isEmpty then .error "No window partitions available"
    else
      let cp := st.currentPartition + 1
      if (st.partitionStartRows.length : Int) - 2 < cp then
        .error "All window partitions consumed"
      else
        let a := st.partitionStartRows[cp.toNat]!
        let b := st.partitionStartRows[cp.toNat + 1]!
        .ok ((st.sortedRows.drop a).take (b - a),
          { st with currentPartition := cp })

/-- Accumulate a sequence of input batches into the build. -/
def runBatches (env : MemEnv) (batches : List (List (Row P S D))) :
    BuildState P S D :=
  batches.foldl (addInput env) initState

/-- Drive the `hasNextPartition()` / `nextPartition()` drain loop for at
most `fuel` rounds, collecting the yielded partition views and the final
state (the state left by the last `hasNextPartition()` call). -/
def drain : Nat → BuildState P S D →
    List (List (Row P S D)) × BuildState P S D
  | 0, st => ([], st)
  | fuel + 1, st =>
    let hp := hasNextPartition st
    if hp.1 then
      match nextPartition hp.2 with
      | .error _ => ([], hp.2)
      | .ok (part, st2) =>
        let rest := drain fuel st2
        (part :: rest.1, rest.2)
    else ([], hp.2)

theorem ensureInputFits_cases (env : MemEnv) (st : BuildState P S D)
    (input : List (Row P S D)) :
    ensureInputFits env st input = st ∨ ensureInputFits env st input = spill st := by
  unfold ensureInputFits
  split_ifs <;> simp

theorem ensureSortFits_cases (env : MemEnv) (st : BuildState P S D) :
    ensureSortFits env st = st ∨ ensureSortFits env st = spill st := by
  unfold ensureSortFits
  split_ifs <;> simp

theorem addInput_step (env : MemEnv) (st : BuildState P S D)
    (input : List (Row P S D)) :
    (addInput env st input).spilledRuns ++ (addInput env st input).data =
      st.spilledRuns ++ st.data ++ input ∧
    (addInput env st input).numRows = st.numRows + input.length ∧
    (addInput env st input).merge = st.merge ∧
    (addInput env st input).sortedRows = st.sortedRows ∧
    (addInput env st input).partitionStartRows = st.partitionStartRows ∧
    (addInput env st input).currentPartition = st.currentPartition ∧
    ((addInput env st input).spillerActive = false →
      st.spillerActive = false ∧
      (addInput env st input).spilledRuns = st.spilledRuns) := by
  unfold addInput
  rcases ensureInputFits_cases env st input with h | h <;> rw [h]
  · simp
  · unfold spill
    simp

theorem runBatches_inv (env : MemEnv) :
    ∀ (batches : List (List (Row P S D))) (st : BuildState P S D),
      (batches.foldl (addInput env) st).spilledRuns ++
          (batches.foldl (addInput env) st).data =
        st.spilledRuns ++ st.data ++ batches.flatten ∧
      (batches.foldl (addInput env) st).numRows =
        st.numRows + batches.flatten.length ∧
      (batches.foldl (addInput env) st).merge = st.merge ∧
      (batches.foldl (addInput env) st).sortedRows = st.sortedRows ∧
      (batches.foldl (addInput env) st).partitionStartRows =
        st.partitionStartRows ∧
      (batches.foldl (addInput env) st).currentPartition =
        st.currentPartition ∧
      ((batches.foldl (addInput env) st).spillerActive = false →
        st.spillerActive = false ∧
        (batches.foldl (addInput env) st).spilledRuns = st.spilledRuns) := by
  intro batches
  induction batches with
  | nil => intro st; simp
  | cons b bs ih =>
    intro st
    rw [List.foldl_cons]
    obtain ⟨a1, a2, a3, a4, a5, a6, a7⟩ := addInput_step env st b
    obtain ⟨i1, i2, i3, i4, i5, i6, i7⟩ := ih (addInput env st b)
    refine ⟨?_, ?_, i3.trans a3, i4.trans a4, i5.trans a5, i6.trans a6, ?_⟩
    · rw [i1, a1, List.flatten_cons]
      simp [List.append_assoc]
    · rw [i2, a2, List.flatten_cons]
      simp [Nat.add_assoc]
    · intro hfa
      obtain ⟨hb1, hb2⟩ := i7 hfa
      obtain ⟨hc1, hc2⟩ := a7 hb1
      exact ⟨hc1, hb2.trans hc2⟩

/-- State after accumulating `batches` from a fresh build: the rows are
split between the spilled runs and the row container (in order), `numRows_`
counts them all, finalization state is untouched, and if no spill ever
happened all rows are still in the container. -/
theorem runBatches_state (env : MemEnv) (batches : List (List (Row P S D))) :
    (runBatches env batches).spilledRuns ++ (runBatches env batches).data =
      batches.flatten ∧
    (runBatches env batches).numRows = batches.flatten.length ∧
    (runBatches env batches).merge = none ∧
    (runBatches env batches).sortedRows = [] ∧
    (runBatches env batches).partitionStartRows = [] ∧
    (runBatches env batches).currentPartition = -1 ∧
    ((runBatches env batches).spillerActive = false →
      (runBatches env batches).spilledRuns = [] ∧
      (runBatches env batches).data = batches.flatten) := by
  obtain ⟨i1, i2, i3, i4, i5, i6, i7⟩ :=
    runBatches_inv env batches (initState (P := P) (S := S) (D := D))
  unfold runBatches
  simp only [initState] at i1 i2 i3 i4 i5 i6 i7
  refine ⟨by simpa using i1, by simpa using i2, i3, i4, i5, i6, ?_⟩
  intro hfa
  obtain ⟨-, hb2⟩ := i7 hfa
  refine ⟨hb2, ?_⟩
  have := i1
  rw [hb2] at this
  simpa using this

/-- Outcome of `noMoreInput` when the spiller is (or becomes) active: a
final flush of any still-buffered rows, then the merge stream opens over all
spilled rows in sorted order. -/
theorem noMoreInput_spill_case (env : MemEnv) (st : BuildState P S D)
    (h0 : ¬ st.numRows = 0) (hmerge : st.merge = none)
    (hsp : (ensureSortFits env st).spillerActive = true) :
    noMoreInput env st = .ok { st with
      spillerActive := true
      spilledRuns := st.spilledRuns ++ st.data
      data := []
      merge := some (sortRows (st.spilledRuns ++ st.data)) } := by
  unfold noMoreInput
  rw [if_neg h0]
  rcases ensureSortFits_cases env st with h | h <;> rw [h] at hsp ⊢
  · simp only [spill, hsp, if_true, hmerge, List.append_nil]
  · simp only [spill, hmerge, List.append_nil] at hsp ⊢
    simp only [hsp, if_true]

/-- Outcome of `noMoreInput` on the memory path: rows are sorted and the
partition boundary list is computed (the fatal non-emptiness check inside
`computePartitionStartRows` passes because the container is non-empty). -/
theorem noMoreInput_memory_case (env : MemEnv) (st : BuildState P S D)
    (h0 : ¬ st.numRows = 0) (hsp : (ensureSortFits env st).spillerActive = false)
    (hdata : ¬ st.data.length = 0) :
    noMoreInput env st = .ok { st with
      sortedRows := sortRows st.data
      partitionStartRows := 0 :: partitionStartsFrom Row.p (sortRows st.data) 0 } := by
  unfold noMoreInput
  rw [if_neg h0]
  have hes : ensureSortFits env st = st := by
    rcases ensureSortFits_cases env st with h | h
    · exact h
    · rw [h] at hsp
      unfold spill at hsp
      simp at hsp
  rw [hes] at hsp ⊢
  rw [if_neg (by simp [hsp])]
  unfold sortPartitions computePartitionStartRows
  have hlen : ¬ (sortRows st.data).length = 0 := by
    rw [length_sortRows]; exact hdata
  simp only [if_neg hlen]

/-- Characterisation of the load loop with a non-empty buffer whose last
element is `x`: it transfers the maximal prefix of the stream whose
partition keys equal `x.p` and stops at the first mismatch, leaving it in
the stream. -/
theorem loadLoop_run :
    ∀ (stream : List (Row P S D)) (x : Row P S D) (buf : List (Row P S D)),
      buf.getLast? = some x →
      loadLoop buf stream =
        (buf ++ stream.takeWhile (fun b => b.p = x.p),
         stream.dropWhile (fun b => b.p = x.p)) := by
  intro stream
  induction stream with
  | nil => intro x buf hlast; rw [loadLoop]; simp
  | cons r rest ih =>
    intro x buf hlast
    rw [loadLoop]
    simp only [hlast]
    by_cases h : r.p = x.p
    · have hcond : (decide (¬ x.p = r.p)) = false := by
        simp [h.symm]
      rw [hcond, if_neg Bool.false_ne_true]
      rw [ih r (buf ++ [r]) (List.getLast?_concat buf)]
      have hpred : (fun b : Row P S D => decide (b.p = r.p)) =
          (fun b : Row P S D => decide (b.p = x.p)) := by
        rw [h]
      rw [hpred]
      rw [List.takeWhile_cons_of_pos (by simpa using h),
        List.dropWhile_cons_of_pos (by simpa using h)]
      simp [List.append_assoc]
    · have hxr : ¬ x.p = r.p := fun hc => h hc.symm
      have hcond : (decide (¬ x.p = r.p)) = true := by simp [hxr]
      rw [hcond, if_pos rfl]
      rw [List.takeWhile_cons_of_neg (by simpa using h),
        List.dropWhile_cons_of_neg (by simpa using h)]
      simp

/-- Characterisation of one full `loadNextPartitionFromSpill` load starting
from the cleared buffer: the loaded buffer is the maximal run of equal
partition keys at the head of the stream (empty iff the stream is empty),
and the first row of the next partition is left unconsumed. -/
theorem loadLoop_nil (stream : List (Row P S D)) :
    loadLoop ([] : List (Row P S D)) stream =
      match stream with
      | [] => ([], [])
      | r :: rest =>
        (r :: rest.takeWhile (fun b => b.p = r.p),
         rest.dropWhile (fun b => b.p = r.p)) := by
  match stream with
  | [] => rw [loadLoop]
  | r :: rest =>
    rw [loadLoop]
    simp only [List.getLast?_nil, if_neg Bool.false_ne_true]
    rw [List.nil_append, loadLoop_run rest r [r] rfl]
    simp

/-- Draining an exhausted merge stream: the load finds nothing, the drain
yields nothing and stops at once. -/
theorem drain_merge_base (st : BuildState P S D) (fuel : Nat)
    (hmerge : st.merge = some ([] : List (Row P S D))) (hfuel : 0 < fuel) :
    (drain fuel st).1 = groups Row.p ([] : List (Row P S D)) ∧
    (drain fuel st).2 =
      { st with sortedRows := [], data := [], merge := some [] } ∧
    (hasNextPartition (drain fuel st).2).1 = false := by
  cases fuel with
  | zero => omega
  | succ f =>
    have hload : loadNextPartitionFromSpill st =
        { st with sortedRows := [], data := [], merge := some [] } := by
      simp only [loadNextPartitionFromSpill, hmerge, loadLoop]
    have hhn : hasNextPartition st =
        (false, { st with sortedRows := [], data := [], merge := some [] }) := by
      simp only [hasNextPartition, hmerge, hload]
      simp
    rw [drain]
    simp only [hhn, if_neg Bool.false_ne_true]
    refine ⟨by rw [groups], by simp, ?_⟩
    simp only [hasNextPartition, loadNextPartitionFromSpill, loadLoop]
    simp

/-- Full drain in merge mode: the partitions handed out are exactly the
maximal equal-key runs of the merge stream, the stream ends up fully
consumed, and the final `hasNextPartition()` reports false. -/
theorem drain_merge :
    ∀ (m : Nat) (stream : List (Row P S D)) (st : BuildState P S D) (fuel : Nat),
      stream.length ≤ m → st.merge = some stream → stream.length < fuel →
      (drain fuel st).1 = groups Row.p stream ∧
      (drain fuel st).2 =
        { st with sortedRows := [], data := [], merge := some [] } ∧
      (hasNextPartition (drain fuel st).2).1 = false := by
  intro m
  induction m with
  | zero =>
    intro stream st fuel hm hmerge hfuel
    have hnil : stream = [] := List.length_eq_zero.1 (by omega)
    subst hnil
    exact drain_merge_base st fuel hmerge (by omega)
  | succ m ih =>
    intro stream st fuel hm hmerge hfuel
    match stream with
    | [] =>
      exact drain_merge_base st fuel hmerge (by omega)
    | r :: rest =>
      cases fuel with
      | zero => simp at hfuel
      | succ f =>
        have hload : loadNextPartitionFromSpill st =
            { st with
                sortedRows := r :: rest.takeWhile (fun b => b.p = r.p)
                data := r :: rest.takeWhile (fun b => b.p = r.p)
                merge := some (rest.dropWhile (fun b => b.p = r.p)) } := by
          simp only [loadNextPartitionFromSpill, hmerge, loadLoop_nil]
        have hhn : hasNextPartition st =
            (true, { st with
                sortedRows := r :: rest.takeWhile (fun b => b.p = r.p)
                data := r :: rest.takeWhile (fun b => b.p = r.p)
                merge := some (rest.dropWhile (fun b => b.p = r.p)) }) := by
          simp only [hasNextPartition, hmerge, hload]
          simp
        have hdw := length_dropWhile_le (fun b => decide (b.p = r.p)) rest
        obtain ⟨ih1, ih2, ih3⟩ := ih (rest.dropWhile (fun b => b.p = r.p))
          { st with
              sortedRows := r :: rest.takeWhile (fun b => b.p = r.p)
              data := r :: rest.takeWhile (fun b => b.p = r.p)
              merge := some (rest.dropWhile (fun b => b.p = r.p)) } f
          (by simp at hm ⊢; omega) rfl (by simp at hfuel ⊢; omega)
        rw [drain]
        simp only [hhn, if_true, nextPartition]
        simp only [List.isEmpty_cons, if_neg Bool.false_ne_true]
        refine ⟨?_, ?_, ?_⟩
        · rw [groups, ih1]
        · rw [ih2]
        · exact ih3

/-- One successful memory-mode `nextPartition()` call with the cursor before
partition `k`: advances the cursor to `k` and returns the slice
`[partitionStartRows_[k], partitionStartRows_[k+1])` of the sorted rows. -/
theorem nextPartition_memory (st : BuildState P S D) (k : Nat)
    (hmerge : st.merge = none) (hcp : st.currentPartition = (k : Int) - 1)
    (hk : k + 2 ≤ st.partitionStartRows.length) :
    nextPartition st = .ok
      ((st.sortedRows.drop st.partitionStartRows[k]!).take
          (st.partitionStartRows[k + 1]! - st.partitionStartRows[k]!),
        { st with currentPartition := (k : Int) }) := by
  unfold nextPartition
  simp only [hmerge]
  rw [if_neg (by simp only [List.isEmpty_iff]; intro hc; rw [hc] at hk; simp at hk)]
  rw [hcp]
  have h1 : (k : Int) - 1 + 1 = (k : Int) := by omega
  simp only [h1]
  rw [if_neg (by omega)]
  simp

/-- A `hasNextPartition()` / `nextPartition()` round on a memory-mode state
whose cursor already sits on the last partition: reports false, hands
nothing out, changes nothing. -/
theorem drain_memory_last (st : BuildState P S D) (fuel : Nat)
    (hmerge : st.merge = none)
    (hcp : st.currentPartition = (st.partitionStartRows.length : Int) - 2)
    (hfuel : 0 < fuel) :
    (drain fuel st).1 = [] ∧ (drain fuel st).2 = st ∧
    (hasNextPartition (drain fuel st).2).1 = false := by
  have hhn : hasNextPartition st = (false, st) := by
    simp only [hasNextPartition, hmerge]
    have hc : ¬ st.currentPartition <
        (st.partitionStartRows.length : Int) - 2 := by
      rw [hcp]; omega
    simp [hc]
  cases fuel with
  | zero => omega
  | succ f =>
    rw [drain]
    simp [hhn]

/-- Full drain in memory mode with the cursor before partition `k`: the
partitions handed out are exactly the boundary slices from `k` on, the
cursor ends on the last partition, and the final `hasNextPartition()`
reports false. -/
theorem drain_memory :
    ∀ (r : Nat) (st : BuildState P S D) (k fuel : Nat),
      st.merge = none →
      st.partitionStartRows.length - 1 - k ≤ r →
      st.currentPartition = (k : Int) - 1 →
      1 ≤ st.partitionStartRows.length →
      k ≤ st.partitionStartRows.length - 1 →
      st.partitionStartRows.length - 1 - k < fuel →
      (drain fuel st).1 =
        boundarySlices st.sortedRows (st.partitionStartRows.drop k) ∧
      (drain fuel st).2 =
        { st with currentPartition :=
            (st.partitionStartRows.length : Int) - 2 } ∧
      (hasNextPartition (drain fuel st).2).1 = false := by
  intro r
  induction r with
  | zero =>
    intro st k fuel hmerge hr hcp hlen hk hfuel
    have hklast : k = st.partitionStartRows.length - 1 := by omega
    have hcpv : st.currentPartition =
        (st.partitionStartRows.length : Int) - 2 := by
      rw [hcp]; omega
    obtain ⟨d1, d2, d3⟩ := drain_memory_last st fuel hmerge hcpv (by omega)
    have hsingleton : (st.partitionStartRows.drop k).length = 1 := by
      rw [List.length_drop]; omega
    obtain ⟨x, hx⟩ := List.length_eq_one.1 hsingleton
    refine ⟨?_, ?_, d3⟩
    · rw [d1, hx, boundarySlices]
    · rw [d2, ← hcpv]
  | succ r ih =>
    intro st k fuel hmerge hr hcp hlen hk hfuel
    by_cases hlast : k = st.partitionStartRows.length - 1
    · have hcpv : st.currentPartition =
          (st.partitionStartRows.length : Int) - 2 := by
        rw [hcp, hlast]; omega
      obtain ⟨d1, d2, d3⟩ := drain_memory_last st fuel hmerge hcpv (by omega)
      have hsingleton : (st.partitionStartRows.drop k).length = 1 := by
        rw [List.length_drop]; omega
      obtain ⟨x, hx⟩ := List.length_eq_one.1 hsingleton
      refine ⟨?_, ?_, d3⟩
      · rw [d1, hx, boundarySlices]
      · rw [d2, ← hcpv]
    · -- at least one more partition: k < length - 1
      have hkdata : k + 2 ≤ st.partitionStartRows.length := by omega
      have hhn : hasNextPartition st = (true, st) := by
        simp only [hasNextPartition, hmerge]
        have hc : st.currentPartition <
            (st.partitionStartRows.length : Int) - 2 := by
          rw [hcp]; omega
        simp [hc]
        omega
      have hnp := nextPartition_memory st k hmerge hcp hkdata
      cases fuel with
      | zero => omega
      | succ f =>
        rw [drain]
        simp only [hhn, hnp, eq_self_iff_true, if_true]
        obtain ⟨ih1, ih2, ih3⟩ := ih { st with currentPartition := (k : Int) }
          (k + 1) f hmerge (by simp <;> omega) (by simp <;> omega)
          (by simp <;> omega) (by simp <;> omega)
          (by simp at hfuel ⊢ <;> omega)
        simp only at ih1 ih2 ih3
        refine ⟨?_, ?_, ih3⟩
        · rw [ih1]
          have hd1 : st.partitionStartRows.drop k =
              st.partitionStartRows[k]! :: st.partitionStartRows.drop (k + 1) := by
            rw [getElem!_pos st.partitionStartRows k (by omega)]
            exact List.drop_eq_getElem_cons (by omega)
          have hd2 : st.partitionStartRows.drop (k + 1) =
              st.partitionStartRows[k + 1]! ::
                st.partitionStartRows.drop (k + 2) := by
            rw [getElem!_pos st.partitionStartRows (k + 1) (by omega)]
            exact List.drop_eq_getElem_cons (by omega)
          rw [hd1, hd2, boundarySlices, ← hd2]
        · rw [ih2]

/-- With spilling disabled, the fit guard never spills, so the spiller stays
inactive across any sequence of `addInput` calls. -/
theorem spillerActive_foldl_disabled (env : MemEnv)
    (hspill : env.spillEnabled = false) :
    ∀ (batches : List (List (Row P S D))) (st : BuildState P S D),
      (batches.foldl (addInput env) st).spillerActive = st.spillerActive := by
  intro batches
  induction batches with
  | nil => intro st; rfl
  | cons b bs ih =>
    intro st
    rw [List.foldl_cons, ih]
    unfold addInput ensureInputFits
    rw [if_pos hspill]

/-- Composite memory-path lemma: finalization succeeds, the boundary list is
well-formed, and a full drain yields exactly the equal-key runs of the
sorted rows, ending exhausted. -/
theorem memory_path (env : MemEnv) (st : BuildState P S D) (fuel : Nat)
    (hmerge : st.merge = none) (hcp : st.currentPartition = -1)
    (h0 : ¬ st.numRows = 0)
    (hsp : (ensureSortFits env st).spillerActive = false)
    (hdlen : st.data.length = st.numRows)
    (hfuel : st.numRows < fuel) :
    ∃ st2, noMoreInput env st = .ok st2 ∧
      st2.sortedRows = sortRows st.data ∧
      st2.numRows = st.numRows ∧
      st2.merge = none ∧
      st2.partitionStartRows.head? = some 0 ∧
      st2.partitionStartRows.getLast? = some st.numRows ∧
      List.Chain' (· < ·) st2.partitionStartRows ∧
      st2.partitionStartRows.length - 1 =
        (groups Row.p (sortRows st.data)).length ∧
      (drain fuel st2).1 = groups Row.p (sortRows st.data) ∧
      (hasNextPartition (drain fuel st2).2).1 = false ∧
      (∃ e, nextPartition (drain fuel st2).2 = .error e) := by
  have hok := noMoreInput_memory_case env st h0 hsp (by omega)
  have hsize : (sortRows st.data).length = st.numRows := by
    rw [length_sortRows, hdlen]
  have hpos : 0 < (sortRows st.data).length := by omega
  obtain ⟨p1, p2, p3⟩ := partitionStartsFrom_props Row.p (sortRows st.data)
    (sortRows st.data).length 0 (by omega) hpos
  have hplen := partitionStartsFrom_length_le Row.p (sortRows st.data)
    (sortRows st.data).length 0 (by omega)
  have hbridge := boundarySlices_eq_groups Row.p (sortRows st.data)
    (sortedByKey_sortRows st.data) (sortRows st.data).length 0 (by omega)
    (by omega)
  rw [List.drop_zero] at hbridge
  cases hpsf : partitionStartsFrom Row.p (sortRows st.data) 0 with
  | nil => rw [hpsf] at p1; simp at p1
  | cons y ys =>
    rw [hpsf] at p1 p2 p3 hplen hbridge hok
    obtain ⟨d1, d2, d3⟩ := drain_memory ((0 :: y :: ys).length - 1)
      { st with
          sortedRows := sortRows st.data
          partitionStartRows := 0 :: y :: ys }
      0 fuel hmerge (by simp) (by simp [hcp]) (by simp) (by simp)
      (by simp only [List.length_cons] at hplen ⊢; omega)
    refine ⟨_, hok, rfl, rfl, hmerge, rfl, ?_, p2, ?_, ?_, d3, ?_⟩
    · simp only [hsize] at p1
      simpa using p1
    · have := length_boundarySlices (sortRows st.data) (0 :: y :: ys)
      rw [hbridge] at this
      simp only [List.length_cons] at this ⊢
      omega
    · rw [d1]
      simpa using hbridge
    · rw [d2]
      refine ⟨"All window partitions consumed", ?_⟩
      simp only [nextPartition, hmerge]
      rw [if_neg (by simp)]
      rw [if_pos (by simp <;> omega)]

/-- Composite spill-path lemma: finalization opens the merge stream over all
rows in sorted order, and a full drain yields exactly its equal-key runs,
ending exhausted. -/
theorem spill_path (env : MemEnv) (st : BuildState P S D) (fuel : Nat)
    (hmerge : st.merge = none) (h0 : ¬ st.numRows = 0)
    (hsp : (ensureSortFits env st).spillerActive = true)
    (hfuel : (st.spilledRuns ++ st.data).length < fuel) :
    ∃ st2, noMoreInput env st = .ok st2 ∧
      (drain fuel st2).1 =
        groups Row.p (sortRows (st.spilledRuns ++ st.data)) ∧
      (hasNextPartition (drain fuel st2).2).1 = false ∧
      (∃ e, nextPartition (drain fuel st2).2 = .error e) := by
  have hok := noMoreInput_spill_case env st h0 hmerge hsp
  have hslen : (sortRows (st.spilledRuns ++ st.data)).length =
      (st.spilledRuns ++ st.data).length := length_sortRows _
  obtain ⟨d1, d2, d3⟩ := drain_merge (sortRows (st.spilledRuns ++ st.data)).length
    (sortRows (st.spilledRuns ++ st.data))
    { st with
        spillerActive := true
        spilledRuns := st.spilledRuns ++ st.data
        data := []
        merge := some (sortRows (st.spilledRuns ++ st.data)) }
    fuel le_rfl rfl (by omega)
  refine ⟨_, hok, d1, d3, ?_⟩
  rw [d2]
  refine ⟨"No window partitions available", ?_⟩
  simp [nextPartition]

theorem spillerActive_of_ensureSortFits_false (env : MemEnv)
    (st : BuildState P S D)
    (hB : (ensureSortFits env st).spillerActive = false) :
    st.spillerActive = false := by
  rcases ensureSortFits_cases env st with h | h
  · rw [h] at hB; exact hB
  · rw [h] at hB; unfold spill at hB; simp at hB

theorem ensureSortFits_disabled (env : MemEnv) (st : BuildState P S D)
    (hspill : env.spillEnabled = false) : ensureSortFits env st = st := by
  unfold ensureSortFits
  rw [if_pos hspill]

theorem drain_zero_state (st : BuildState P S D) (fuel : Nat)
    (hmerge : st.merge = none) (hpsr : st.partitionStartRows = []) :
    drain (fuel + 1) st = ([], st) := by
  have hhn : hasNextPartition st = (false, st) := by
    simp [hasNextPartition, hmerge, hpsr]
  rw [drain]
  simp [hhn]

theorem nextPartition_error_empty (st : BuildState P S D)
    (hmerge : st.merge = none) (hpsr : st.partitionStartRows = []) :
    nextPartition st = .error "No window partitions available" := by
  simp [nextPartition, hmerge, hpsr]

end Build

/-- Concrete memory-oracle with spilling disabled (witness data). -/
def envW0 : MemEnv :=
  { spillEnabled := false
    testSpill := false
    freeRows := 0
    outOfLineFreeBytes := 0
    retainedSize := 0
    usedBytes := 0
    availableReservation := 0
    minSpillableReservationPct := 0
    spillableReservationGrowthPct := 0
    sizeIncrement := fun _ _ => 0
    maybeReserve := fun _ => false }

/-- Concrete memory-oracle with spilling enabled and the test hook active
(witness data). -/
def envWSpill : MemEnv :=
  { envW0 with spillEnabled := true, testSpill := true }

/-- Concrete memory-oracle under pressure: the fit check fails and
`maybeReserve` refuses to grow the reservation (witness data). -/
def envWTight : MemEnv :=
  { spillEnabled := true
    testSpill := false
    freeRows := 0
    outOfLineFreeBytes := 0
    retainedSize := 0
    usedBytes := 100
    availableReservation := 0
    minSpillableReservationPct := 100
    spillableReservationGrowthPct := 10
    sizeIncrement := fun a b => a + b
    maybeReserve := fun _ => false }

/-- A build holding one row (witness data). -/
def stWData : BuildState Nat Nat Nat :=
  { initState with data := [⟨1, 1, 1⟩] }

/-- A merge-mode build whose stream holds two partitions (witness data). -/
def stWMerge : BuildState Nat Nat Nat :=
  { initState with merge := some [⟨1, 1, 1⟩, ⟨1, 2, 2⟩, ⟨2, 1, 3⟩] }

/-- A merge-mode build with a loaded one-row buffer (witness data). -/
def stWBuf : BuildState Nat Nat Nat :=
  { initState with merge := some [⟨2, 2, 2⟩], sortedRows := [⟨1, 1, 1⟩] }

/-- Two concrete input batches (witness data). -/
def batchesW : List (List (Row Nat Nat Nat)) :=
  [[⟨1, 2, 0⟩, ⟨0, 1, 1⟩], [⟨1, 1, 2⟩]]

section Claims

variable {α K : Type} [DecidableEq K] [Inhabited α]
variable {P S D : Type} [LinearOrder P] [LinearOrder S] [DecidableEq D]
variable [Inhabited P] [Inhabited S] [Inhabited D]

/-- C1: For every row sequence sorted by partition keys and every start
index with `0 <= start < row count`, `findNextPartitionStartRow(start)`
returns the smallest index `i > start` such that row `i`'s partition key
differs from row `start`'s, or the row count if no such index exists; i.e.
it matches the reference linear scan (`linearNextPartitionStart`),
including for a single row, one partition covering all rows, and every row
its own partition. -/
theorem C1_findNextPartitionStartRow_matches_linear_scan
    (key : α → K) (rows : List α) (start : Nat)
    (hs : SortedByKey key rows) (hstart : start < rows.length) :
    findNextPartitionStartRow key rows start =
      linearNextPartitionStart key rows start :=
  findNext_eq_linear key rows hs start hstart

theorem C1_witness :
    (SortedByKey (fun n : Nat => n) [1, 1, 2, 2, 2, 3] ∧
      0 < ([1, 1, 2, 2, 2, 3] : List Nat).length) ∧
    findNextPartitionStartRow (fun n : Nat => n) [1, 1, 2, 2, 2, 3] 0 =
      linearNextPartitionStart (fun n : Nat => n) [1, 1, 2, 2, 2, 3] 0 :=
  ⟨⟨by decide, by decide⟩,
    C1_findNextPartitionStartRow_matches_linear_scan
      (fun n : Nat => n) [1, 1, 2, 2, 2, 3] 0 (by decide) (by decide)⟩

/-- C5: In merge mode, every `hasNextPartition()` call clears the partition
buffer, then pulls rows from the merge stream one at a time — copying each
pulled row into the buffer (and the row container) and advancing the stream
— until it reaches a row whose partition-key columns differ from the last
buffered row under the equality-only, nulls-as-values comparison (equality
on `Row.p`); that first differing row is left unconsumed in the stream
(it heads the `dropWhile` remainder), and the call returns true if and only
if the buffer is non-empty afterwards (i.e. iff the stream was non-empty). -/
theorem C5_hasNextPartition_merge_loads_one_partition
    (st : BuildState P S D) (stream : List (Row P S D))
    (hmerge : st.merge = some stream) :
    hasNextPartition st =
      match stream with
      | [] => (false, { st with sortedRows := [], data := [], merge := some [] })
      | r :: rest =>
        (true, { st with
            sortedRows := r :: rest.takeWhile (fun b => b.p = r.p)
            data := r :: rest.takeWhile (fun b => b.p = r.p)
            merge := some (rest.dropWhile (fun b => b.p = r.p)) }) := by
  match stream with
  | [] =>
    have hload : loadNextPartitionFromSpill st =
        { st with sortedRows := [], data := [], merge := some [] } := by
      simp only [loadNextPartitionFromSpill, hmerge, loadLoop]
    simp only [hasNextPartition, hmerge, hload]
    simp
  | r :: rest =>
    have hload : loadNextPartitionFromSpill st =
        { st with
            sortedRows := r :: rest.takeWhile (fun b => b.p = r.p)
            data := r :: rest.takeWhile (fun b => b.p = r.p)
            merge := some (rest.dropWhile (fun b => b.p = r.p)) } := by
      simp only [loadNextPartitionFromSpill, hmerge, loadLoop_nil]
    simp only [hasNextPartition, hmerge, hload]
    simp

theorem C5_witness :
    stWMerge.merge = some [⟨1, 1, 1⟩, ⟨1, 2, 2⟩, ⟨2, 1, 3⟩] ∧
    hasNextPartition stWMerge =
      match [(⟨1, 1, 1⟩ : Row Nat Nat Nat), ⟨1, 2, 2⟩, ⟨2, 1, 3⟩] with
      | [] => (false, { stWMerge with
          sortedRows := [], data := [], merge := some [] })
      | r :: rest =>
        (true, { stWMerge with
            sortedRows := r :: rest.takeWhile (fun b => b.p = r.p)
            data := r :: rest.takeWhile (fun b => b.p = r.p)
            merge := some (rest.dropWhile (fun b => b.p = r.p)) }) :=
  ⟨rfl, C5_hasNextPartition_merge_loads_one_partition stWMerge
    [⟨1, 1, 1⟩, ⟨1, 2, 2⟩, ⟨2, 1, 3⟩] rfl⟩

/-- C7: If the reservation-growth attempt inside `ensureInputFits` fails
(`maybeReserve` returns false on the computed target increment), the call
only logs a warning and returns: it does not trigger a spill, does not
throw, and leaves the row store, the accepted-row count and the spill state
unchanged — so the incoming batch is still stored by `addInput`
afterwards. -/
theorem C7_reservation_failure_soft (env : MemEnv) (st : BuildState P S D)
    (input : List (Row P S D))
    (hen : ¬ env.spillEnabled = false)
    (hrows : ¬ st.data.length = 0)
    (htest : ¬ env.testSpill = true)
    (hfit : ¬ (env.usedBytes * env.minSpillableReservationPct / 100 ≤
          env.availableReservation ∧
        input.length < env.freeRows ∧
        (env.retainedSize - env.outOfLineFreeBytes = 0 ∨
          (env.retainedSize - env.outOfLineFreeBytes) / st.data.length *
              input.length ≤ env.outOfLineFreeBytes)))
    (hres : env.maybeReserve
        (max (env.sizeIncrement input.length
            ((env.retainedSize - env.outOfLineFreeBytes) / st.data.length *
              input.length) * 2)
          (env.usedBytes * env.spillableReservationGrowthPct / 100)) = false) :
    ensureInputFits env st input = st ∧
    addInput env st input =
      { st with
          data := st.data ++ input
          numRows := st.numRows + input.length } := by
  have h1 : ensureInputFits env st input = st := by
    unfold ensureInputFits
    rw [if_neg hen, if_neg hrows, if_neg htest]
    simp only
    rw [if_neg hfit, if_neg (by rw [hres]; exact Bool.false_ne_true)]
  refine ⟨h1, ?_⟩
  unfold addInput
  rw [h1]

theorem C7_witness :
    ((¬ envWTight.spillEnabled = false) ∧ (¬ stWData.data.length = 0)) ∧
    ensureInputFits envWTight stWData [⟨2, 2, 2⟩] = stWData :=
  ⟨⟨by decide, by decide⟩,
    (C7_reservation_failure_soft envWTight stWData [⟨2, 2, 2⟩]
      (by decide) (by decide) (by decide) (by decide) rfl).1⟩

/-- C8: If zero rows were ever added (every batch empty), then after
`noMoreInput()` the build state is unchanged (no sort, no boundary
computation, no spill finalization, no assertion — the call returns `.ok`),
and the first `hasNextPartition()` call returns false. -/
theorem C8_zero_rows_no_partitions (env : MemEnv)
    (batches : List (List (Row P S D))) (hempty : ∀ b ∈ batches, b = []) :
    (runBatches env batches).numRows = 0 ∧
    noMoreInput env (runBatches env batches) = .ok (runBatches env batches) ∧
    hasNextPartition (runBatches env batches) =
      (false, runBatches env batches) := by
  obtain ⟨s1, s2, s3, s4, s5, s6, s7⟩ := runBatches_state env batches
  have hflat : batches.flatten = [] := List.flatten_eq_nil_iff.2 hempty
  have hnum : (runBatches env batches).numRows = 0 := by
    rw [s2, hflat]; rfl
  refine ⟨hnum, ?_, ?_⟩
  · unfold noMoreInput
    rw [if_pos hnum]
  · simp only [hasNextPartition, s3, s5]
    simp

theorem C8_witness :
    (∀ b ∈ ([[], []] : List (List (Row Nat Nat Nat))), b = []) ∧
    ((runBatches envW0 ([[], []] : List (List (Row Nat Nat Nat)))).numRows = 0 ∧
      noMoreInput envW0 (runBatches envW0 ([[], []] :
          List (List (Row Nat Nat Nat)))) =
        .ok (runBatches envW0 ([[], []] : List (List (Row Nat Nat Nat)))) ∧
      hasNextPartition (runBatches envW0 ([[], []] :
          List (List (Row Nat Nat Nat)))) =
        (false, runBatches envW0 ([[], []] : List (List (Row Nat Nat Nat))))) :=
  ⟨by decide, C8_zero_rows_no_partitions envW0 [[], []] (by decide)⟩

/-- C10: In merge mode, `nextPartition()` reads but never modifies the
build's state: it does not advance the merge stream and does not change the
row store or the buffered rows, so consecutive `nextPartition()` calls
without an intervening `hasNextPartition()` return views over the same
buffered partition; all stream advancement happens inside
`hasNextPartition()` (`loadNextPartitionFromSpill`). -/
theorem C10_nextPartition_merge_readonly (st : BuildState P S D)
    (stream : List (Row P S D)) (hmerge : st.merge = some stream)
    (hne : ¬ st.sortedRows.isEmpty = true) :
    nextPartition st = .ok (st.sortedRows, st) ∧
    ∀ part st2, nextPartition st = .ok (part, st2) →
      st2 = st ∧ nextPartition st2 = .ok (part, st2) := by
  have h1 : nextPartition st = .ok (st.sortedRows, st) := by
    simp only [nextPartition, hmerge]
    rw [if_neg hne]
  refine ⟨h1, ?_⟩
  intro part st2 h2
  rw [h1] at h2
  obtain ⟨hpart, hst⟩ : st.sortedRows = part ∧ st = st2 := by
    have := congrArg (fun x => match x with
      | Except.ok v => v
      | Except.error _ => (st.sortedRows, st)) h2
    simp only at this
    exact ⟨congrArg Prod.fst this, congrArg Prod.snd this⟩
  subst hpart
  subst hst
  exact ⟨rfl, h1⟩

theorem C10_witness :
    (stWBuf.merge = some [⟨2, 2, 2⟩] ∧
      ¬ stWBuf.sortedRows.isEmpty = true) ∧
    nextPartition stWBuf = .ok (stWBuf.sortedRows, stWBuf) :=
  ⟨⟨rfl, by decide⟩,
    (C10_nextPartition_merge_readonly stWBuf [⟨2, 2, 2⟩] rfl (by decide)).1⟩

/-- C2: For every non-empty accumulated input finalized in memory mode (no
spill — spilling disabled), the partition boundary list produced by
`computePartitionStartRows` begins with 0, ends with the total row count, is
strictly increasing, and its length minus one is the number of partitions
(the number of maximal equal-partition-key runs of the sorted rows). -/
theorem C2_partition_boundary_list_invariants (env : MemEnv)
    (batches : List (List (Row P S D)))
    (hspill : env.spillEnabled = false) (hne : ¬ batches.flatten = []) :
    ∃ st2, noMoreInput env (runBatches env batches) = .ok st2 ∧
      st2.partitionStartRows.head? = some 0 ∧
      st2.partitionStartRows.getLast? = some st2.numRows ∧
      List.Chain' (· < ·) st2.partitionStartRows ∧
      st2.partitionStartRows.length - 1 =
        (groups Row.p st2.sortedRows).length := by
  obtain ⟨s1, s2, s3, s4, s5, s6, s7⟩ := runBatches_state env batches
  have hact : (runBatches env batches).spillerActive = false := by
    unfold runBatches
    rw [spillerActive_foldl_disabled env hspill]
    rfl
  obtain ⟨hsr, hdata⟩ := s7 hact
  have h0 : ¬ (runBatches env batches).numRows = 0 := by
    rw [s2]
    intro hc
    exact hne (List.length_eq_zero.1 hc)
  have hsp : (ensureSortFits env (runBatches env batches)).spillerActive =
      false := by
    rw [ensureSortFits_disabled env _ hspill]
    exact hact
  have hdlen : (runBatches env batches).data.length =
      (runBatches env batches).numRows := by
    rw [hdata, s2]
  obtain ⟨st2, hok, m1, m2, m3, m4, m5, m6, m7, -, -, -⟩ :=
    memory_path env (runBatches env batches)
      ((runBatches env batches).numRows + 1) s3 s6 h0 hsp hdlen (by omega)
  refine ⟨st2, hok, m4, ?_, m6, ?_⟩
  · rw [m2, m5]
  · rw [m1, m7]

theorem C2_witness :
    (envW0.spillEnabled = false ∧ ¬ batchesW.flatten = []) ∧
    (∃ st2, noMoreInput envW0 (runBatches envW0 batchesW) = .ok st2 ∧
      st2.partitionStartRows.head? = some 0 ∧
      st2.partitionStartRows.getLast? = some st2.numRows ∧
      List.Chain' (· < ·) st2.partitionStartRows ∧
      st2.partitionStartRows.length - 1 =
        (groups Row.p st2.sortedRows).length) :=
  ⟨⟨rfl, by decide⟩,
    C2_partition_boundary_list_invariants envW0 batchesW rfl (by decide)⟩

/-- C9: The fatal check inside `computePartitionStartRows` that the sorted
row array is non-empty can never fire through the public interface:
`noMoreInput` always returns `.ok` on states built by `addInput` calls
(`sortPartitions` is reached only when the accumulated row count is
positive, and `sortedRows_` is resized to that count before the boundary
computation runs — in memory mode the final `sortedRows` length equals
`numRows_`). -/
theorem C9_compute_boundaries_check_never_fires (env : MemEnv)
    (batches : List (List (Row P S D))) :
    ∃ st2, noMoreInput env (runBatches env batches) = .ok st2 ∧
      (st2.merge = none → st2.sortedRows.length = st2.numRows) := by
  obtain ⟨s1, s2, s3, s4, s5, s6, s7⟩ := runBatches_state env batches
  by_cases h0 : (runBatches env batches).numRows = 0
  · refine ⟨runBatches env batches, ?_, ?_⟩
    · unfold noMoreInput
      rw [if_pos h0]
    · intro
      rw [s4, h0]
      rfl
  · cases hB : (ensureSortFits env (runBatches env batches)).spillerActive with
    | false =>
      have hact := spillerActive_of_ensureSortFits_false env _ hB
      obtain ⟨hsr, hdata⟩ := s7 hact
      have hdlen : (runBatches env batches).data.length =
          (runBatches env batches).numRows := by
        rw [hdata, s2]
      obtain ⟨st2, hok, m1, m2, m3, m4, m5, m6, m7, -, -, -⟩ :=
        memory_path env (runBatches env batches)
          ((runBatches env batches).numRows + 1) s3 s6 h0 hB hdlen (by omega)
      refine ⟨st2, hok, ?_⟩
      intro
      rw [m1, m2, length_sortRows, hdlen]
    | true =>
      have hok := noMoreInput_spill_case env (runBatches env batches) h0 s3 hB
      refine ⟨_, hok, ?_⟩
      intro hc
      simp at hc

/-- Case analysis shared by C4 and C6: whatever the memory oracle did,
finalization succeeds, a full drain yields all accumulated rows, and a
further `nextPartition()` call afterwards fails. -/
theorem finalize_drain_total (env : MemEnv)
    (batches : List (List (Row P S D))) :
    ∃ st2, noMoreInput env (runBatches env batches) = .ok st2 ∧
      ((drain (batches.flatten.length + 1) st2).1.map List.length).sum =
        batches.flatten.length ∧
      (∃ e, nextPartition (drain (batches.flatten.length + 1) st2).2 =
        .error e) := by
  obtain ⟨s1, s2, s3, s4, s5, s6, s7⟩ := runBatches_state env batches
  have hsum : ∀ l : List (Row P S D),
      ((groups Row.p (sortRows l)).map List.length).sum = l.length := by
    intro l
    have h1 := groups_flatten Row.p (sortRows l).length (sortRows l) le_rfl
    have h2 := List.length_flatten (groups Row.p (sortRows l))
    rw [h1] at h2
    rw [← h2, length_sortRows]
  by_cases h0 : (runBatches env batches).numRows = 0
  · have hflat : batches.flatten.length = 0 := by rw [← s2, h0]
    have hdz := drain_zero_state (runBatches env batches)
      batches.flatten.length s3 s5
    refine ⟨runBatches env batches, ?_, ?_, ?_⟩
    · unfold noMoreInput
      rw [if_pos h0]
    · rw [hdz]
      simpa using hflat.symm
    · rw [hdz]
      exact ⟨_, nextPartition_error_empty _ s3 s5⟩
  · cases hB : (ensureSortFits env (runBatches env batches)).spillerActive with
    | false =>
      have hact := spillerActive_of_ensureSortFits_false env _ hB
      obtain ⟨hsr, hdata⟩ := s7 hact
      have hdlen : (runBatches env batches).data.length =
          (runBatches env batches).numRows := by
        rw [hdata, s2]
      obtain ⟨st2, hok, m1, m2, m3, m4, m5, m6, m7, m8, m9, m10⟩ :=
        memory_path env (runBatches env batches)
          (batches.flatten.length + 1) s3 s6 h0 hB hdlen (by omega)
      refine ⟨st2, hok, ?_, m10⟩
      rw [m8, hdata, hsum]
    | true =>
      obtain ⟨st2, hok, m1, m2, m3⟩ :=
        spill_path env (runBatches env batches)
          (batches.flatten.length + 1) s3 h0 hB (by rw [s1]; omega)
      refine ⟨st2, hok, ?_, m3⟩
      rw [m1, s1, hsum]

/-- C4: For every sequence of `addInput` batches followed by `noMoreInput`
and a full `hasNextPartition`/`nextPartition` drain, the stored row count
(`numRows_`) equals the sum of the batch sizes, and the total number of
rows across all yielded partition views equals that same count. -/
theorem C4_row_counts_preserved (env : MemEnv)
    (batches : List (List (Row P S D))) :
    (runBatches env batches).numRows = (batches.map List.length).sum ∧
    ∃ st2, noMoreInput env (runBatches env batches) = .ok st2 ∧
      ((drain (batches.flatten.length + 1) st2).1.map List.length).sum =
        (batches.map List.length).sum := by
  obtain ⟨s1, s2, s3, s4, s5, s6, s7⟩ := runBatches_state env batches
  have hlen : batches.flatten.length = (batches.map List.length).sum :=
    List.length_flatten batches
  obtain ⟨st2, hok, hdrain, -⟩ := finalize_drain_total env batches
  exact ⟨by rw [s2, hlen], st2, hok, by rw [hdrain, hlen]⟩

/-- C6: Calling `nextPartition()` before `noMoreInput()`, or after every
partition has been consumed by a full drain, fails with a fatal assertion
(`VELOX_CHECK`, modelled as `Except.error`) in both memory mode and merge
mode; it never silently returns an empty or garbage partition view. -/
theorem C6_nextPartition_fails_outside_drain (env : MemEnv)
    (batches : List (List (Row P S D))) :
    (∃ e, nextPartition (runBatches env batches) = .error e) ∧
    (∃ st2, noMoreInput env (runBatches env batches) = .ok st2 ∧
      ∃ e2, nextPartition (drain (batches.flatten.length + 1) st2).2 =
        .error e2) := by
  obtain ⟨s1, s2, s3, s4, s5, s6, s7⟩ := runBatches_state env batches
  obtain ⟨st2, hok, -, herr⟩ := finalize_drain_total env batches
  exact ⟨⟨_, nextPartition_error_empty _ s3 s5⟩, st2, hok, herr⟩

/-- C3: For the same sequence of input batches, a run in which a spill is
forced via the test hook before any rows are added and a run in which no
spill ever occurs yield the same partition count and, partition for
partition, the same multiset of rows.  (Both paths order rows by the same
combined compare-flag list, so the merge-stream grouping and the in-memory
boundary slicing produce the same partitions.) -/
theorem C3_spill_and_memory_paths_agree (envS envM : MemEnv)
    (batches : List (List (Row P S D)))
    (hSen : envS.spillEnabled = true) (hSt : envS.testSpill = true)
    (hMen : envM.spillEnabled = false) :
    ∃ stS stM,
      noMoreInput envS (runBatches envS batches) = .ok stS ∧
      noMoreInput envM (runBatches envM batches) = .ok stM ∧
      (drain (batches.flatten.length + 1) stS).1.length =
        (drain (batches.flatten.length + 1) stM).1.length ∧
      ∀ k, k < (drain (batches.flatten.length + 1) stM).1.length →
        ((drain (batches.flatten.length + 1) stS).1[k]! :
          Multiset (Row P S D)) =
        ((drain (batches.flatten.length + 1) stM).1[k]! :
          Multiset (Row P S D)) := by
  obtain ⟨sS1, sS2, sS3, sS4, sS5, sS6, sS7⟩ := runBatches_state envS batches
  obtain ⟨sM1, sM2, sM3, sM4, sM5, sM6, sM7⟩ := runBatches_state envM batches
  by_cases h0 : batches.flatten = []
  · have hS0 : (runBatches envS batches).numRows = 0 := by rw [sS2, h0]; rfl
    have hM0 : (runBatches envM batches).numRows = 0 := by rw [sM2, h0]; rfl
    have hdzS := drain_zero_state (runBatches envS batches)
      batches.flatten.length sS3 sS5
    have hdzM := drain_zero_state (runBatches envM batches)
      batches.flatten.length sM3 sM5
    refine ⟨runBatches envS batches, runBatches envM batches, ?_, ?_, ?_, ?_⟩
    · unfold noMoreInput; rw [if_pos hS0]
    · unfold noMoreInput; rw [if_pos hM0]
    · rw [hdzS, hdzM]
    · intro k hk
      rw [hdzM] at hk
      simp at hk
  · have hlen0 : ¬ batches.flatten.length = 0 := by
      intro hc
      exact h0 (List.length_eq_zero.1 hc)
    have hS0 : ¬ (runBatches envS batches).numRows = 0 := by
      rw [sS2]; exact hlen0
    have hM0 : ¬ (runBatches envM batches).numRows = 0 := by
      rw [sM2]; exact hlen0
    have hesS : ensureSortFits envS (runBatches envS batches) =
        spill (runBatches envS batches) := by
      unfold ensureSortFits
      rw [if_neg (by simp [hSen]), if_pos hSt]
    have hBS : (ensureSortFits envS (runBatches envS batches)).spillerActive =
        true := by
      rw [hesS]; rfl
    obtain ⟨stS, hokS, mS1, -, -⟩ := spill_path envS (runBatches envS batches)
      (batches.flatten.length + 1) sS3 hS0 hBS (by rw [sS1]; omega)
    have hactM : (runBatches envM batches).spillerActive = false := by
      unfold runBatches
      rw [spillerActive_foldl_disabled envM hMen]
      rfl
    obtain ⟨hsrM, hdataM⟩ := sM7 hactM
    have hBM : (ensureSortFits envM (runBatches envM batches)).spillerActive =
        false := by
      rw [ensureSortFits_disabled envM _ hMen]
      exact hactM
    have hdlenM : (runBatches envM batches).data.length =
        (runBatches envM batches).numRows := by
      rw [hdataM, sM2]
    obtain ⟨stM, hokM, n1, n2, n3, n4, n5, n6, n7, n8, -, -⟩ :=
      memory_path envM (runBatches envM batches)
        (batches.flatten.length + 1) sM3 sM6 hM0 hBM hdlenM
        (by rw [sM2]; omega)
    have hSdrain : (drain (batches.flatten.length + 1) stS).1 =
        groups Row.p (sortRows batches.flatten) := by
      rw [mS1, sS1]
    have hMdrain : (drain (batches.flatten.length + 1) stM).1 =
        groups Row.p (sortRows batches.flatten) := by
      rw [n8, hdataM]
    refine ⟨stS, stM, hokS, hokM, ?_, ?_⟩
    · rw [hSdrain, hMdrain]
    · intro k hk
      rw [hSdrain, hMdrain]

theorem C3_witness :
    (envWSpill.spillEnabled = true ∧ envWSpill.testSpill = true ∧
      envW0.spillEnabled = false) ∧
    (∃ stS stM,
      noMoreInput envWSpill (runBatches envWSpill batchesW) = .ok stS ∧
      noMoreInput envW0 (runBatches envW0 batchesW) = .ok stM ∧
      (drain (batchesW.flatten.length + 1) stS).1.length =
        (drain (batchesW.flatten.length + 1) stM).1.length ∧
      ∀ k, k < (drain (batchesW.flatten.length + 1) stM).1.length →
        ((drain (batchesW.flatten.length + 1) stS).1[k]! :
          Multiset (Row Nat Nat Nat)) =
        ((drain (batchesW.flatten.length + 1) stM).1[k]! :
          Multiset (Row Nat Nat Nat))) :=
  ⟨⟨rfl, rfl, rfl⟩,
    C3_spill_and_memory_paths_agree envWSpill envW0 batchesW rfl rfl rfl⟩

end Claims

end SortWindowBuild
